import Mathlib

/-
Verification development for the prism light-dispersion tracer.

The embedding below translates the program's vector algebra, ray-segment
intersection, prism geometry, spectrum table and the recursive ray tracer
into Lean over the real numbers.  Source locations are cited next to each
definition.
-/

namespace Optics

noncomputable section

/-- 2D position, from the types module (`interface Point`). -/
@[ext]
structure Point where
  x : ℝ
  y : ℝ

/-- 2D displacement, structurally identical to `Point` (`interface Vector`). -/
abbrev Vector := Point

/-- `add` from the vector utilities. -/
def add (v1 : Point) (v2 : Vector) : Point := ⟨v1.x + v2.x, v1.y + v2.y⟩

/-- `sub` from the vector utilities. -/
def sub (v1 v2 : Point) : Vector := ⟨v1.x - v2.x, v1.y - v2.y⟩

/-- `scale` from the vector utilities. -/
def scale (v : Vector) (s : ℝ) : Vector := ⟨v.x * s, v.y * s⟩

/-- `dot` from the vector utilities. -/
def dot (v1 v2 : Vector) : ℝ := v1.x * v2.x + v1.y * v2.y

/-- `cross` from the vector utilities. -/
def cross (v1 v2 : Vector) : ℝ := v1.x * v2.y - v1.y * v2.x

/-- `mag` from the vector utilities: `Math.sqrt(v.x*v.x + v.y*v.y)`. -/
def mag (v : Vector) : ℝ := Real.sqrt (v.x * v.x + v.y * v.y)

/-- `normalize` from the vector utilities: returns the zero vector when the
magnitude is exactly zero, otherwise divides the components by the magnitude. -/
def normalize (v : Vector) : Vector :=
  if mag v = 0 then ⟨0, 0⟩ else ⟨v.x / mag v, v.y / mag v⟩

/-- `rotate` from the vector utilities. -/
def rotate (v : Vector) (angle : ℝ) : Vector :=
  ⟨v.x * Real.cos angle - v.y * Real.sin angle,
   v.x * Real.sin angle + v.y * Real.cos angle⟩

/-- `distance` from the vector utilities. -/
def distance (p1 p2 : Point) : ℝ :=
  Real.sqrt ((p2.x - p1.x) ^ 2 + (p2.y - p1.y) ^ 2)

/-- Result record of `intersectRaySegment` (`{ point, t, normal }`). -/
structure RayHit where
  point : Point
  t : ℝ
  normal : Vector

/-- The determinant `denom` computed in `intersectRaySegment`, with
`v1 = rayOrigin`, `v2 = rayOrigin + rayDir`, `v3 = p1`, `v4 = p2`. -/
def rsDenom (o : Point) (d : Vector) (p1 p2 : Point) : ℝ :=
  (o.x - (o.x + d.x)) * (p1.y - p2.y) - (o.y - (o.y + d.y)) * (p1.x - p2.x)

/-- The solved ray parameter `t` of `intersectRaySegment`. -/
def rsT (o : Point) (d : Vector) (p1 p2 : Point) : ℝ :=
  ((o.x - p1.x) * (p1.y - p2.y) - (o.y - p1.y) * (p1.x - p2.x)) / rsDenom o d p1 p2

/-- The solved segment parameter `u` of `intersectRaySegment`. -/
def rsU (o : Point) (d : Vector) (p1 p2 : Point) : ℝ :=
  -((o.x - (o.x + d.x)) * (o.y - p1.y) - (o.y - (o.y + d.y)) * (o.x - p1.x)) / rsDenom o d p1 p2

/-- The oriented segment normal computed inside `intersectRaySegment`: rotate
the segment direction by 90 degrees, normalize, and flip when it points with
the incoming ray direction. -/
def segNormal (d : Vector) (p1 p2 : Point) : Vector :=
  let segDir := sub p2 p1
  let n := normalize ⟨-segDir.y, segDir.x⟩
  if 0 < dot d n then scale n (-1) else n

/-- `intersectRaySegment` from the vector utilities: intersection between the
ray `origin + t * dir` and the segment `p1 -> p2`. -/
def intersectRaySegment (o : Point) (d : Vector) (p1 p2 : Point) : Option RayHit :=
  if |rsDenom o d p1 p2| < 1e-6 then none
  else if 0.001 < rsT o d p1 p2 ∧ 0 ≤ rsU o d p1 p2 ∧ rsU o d p1 p2 ≤ 1 then
    some ⟨⟨o.x + rsT o d p1 p2 * ((o.x + d.x) - o.x),
           o.y + rsT o d p1 p2 * ((o.y + d.y) - o.y)⟩,
          rsT o d p1 p2,
          segNormal d p1 p2⟩
  else none

/-- `interface Ray` from the types module. -/
structure Ray where
  origin : Point
  direction : Vector
  color : String
  wavelength : ℝ
  intensity : ℝ

/-- `interface PrismData` from the types module. -/
structure PrismData where
  center : Point
  rotation : ℝ
  sideLength : ℝ
  refractiveIndex : ℝ

/-- One entry of the `SPECTRUM` table in OpticsCanvas. -/
structure SpectrumSample where
  color : String
  wlOffset : ℝ
  intensity : ℝ

/-- The fixed `SPECTRUM` table of OpticsCanvas (red through violet). -/
def SPECTRUM : List SpectrumSample :=
  [⟨"#ff0000", -0.03, 1.0⟩,
   ⟨"#ffa500", -0.02, 0.9⟩,
   ⟨"#ffff00", -0.01, 0.9⟩,
   ⟨"#00ff00", 0.00, 0.9⟩,
   ⟨"#00ffff", 0.01, 0.9⟩,
   ⟨"#0000ff", 0.02, 0.9⟩,
   ⟨"#8b00ff", 0.03, 0.8⟩]

/-- A drawable segment pushed by `traceRay` onto its output array. -/
structure Segment where
  p1 : Point
  p2 : Point
  color : String
  width : ℝ
  blur : ℝ

/-- The three angles listed in `getPrismVertices`:
`rotation - pi/2`, `rotation - pi/2 + 2*pi/3`, `rotation - pi/2 + 4*pi/3`. -/
def prismAngle (p : PrismData) : Fin 3 → ℝ := fun i =>
  if i = 0 then p.rotation - Real.pi / 2
  else if i = 1 then p.rotation - Real.pi / 2 + 2 * Real.pi / 3
  else p.rotation - Real.pi / 2 + 4 * Real.pi / 3

/-- `getPrismVertices` of OpticsCanvas: circumradius `sideLength / sqrt 3`,
vertex `i` placed at `center + radius * (cos a_i, sin a_i)`. -/
def getPrismVertices (p : PrismData) : Fin 3 → Point := fun i =>
  let radius := p.sideLength / Real.sqrt 3
  ⟨p.center.x + radius * Real.cos (prismAngle p i),
   p.center.y + radius * Real.sin (prismAngle p i)⟩

/-- The `closestHit` record of `traceRay` (`{ ...hit, boundaryIndex }`). -/
structure ClosestHit where
  point : Point
  t : ℝ
  normal : Vector
  boundaryIndex : Fin 3

/-- One step of `traceRay`'s closest-hit loop: keep the incumbent unless the
new edge produced a hit with a strictly smaller `t` (or there was none yet). -/
def updateClosest (acc : Option ClosestHit) (hit : Option RayHit) (i : Fin 3) :
    Option ClosestHit :=
  match hit with
  | none => acc
  | some h =>
    match acc with
    | none => some ⟨h.point, h.t, h.normal, i⟩
    | some ch => if h.t < ch.t then some ⟨h.point, h.t, h.normal, i⟩ else acc

/-- The closest-hit search of `traceRay`: test the three edges
`(v0,v1), (v1,v2), (v2,v0)` in order. -/
def closestHit (o : Point) (d : Vector) (verts : Fin 3 → Point) : Option ClosestHit :=
  updateClosest
    (updateClosest
      (updateClosest none (intersectRaySegment o d (verts 0) (verts 1)) 0)
      (intersectRaySegment o d (verts 1) (verts 2)) 1)
    (intersectRaySegment o d (verts 2) (verts 0)) 2

/-- The geometric outward normal of edge `i` computed in `traceRay`:
the normalized perpendicular of the edge direction, flipped whenever its dot
product with the vector from the edge's first endpoint to the prism center is
positive. -/
def geoNormal (center : Point) (verts : Fin 3 → Point) (i : Fin 3) : Vector :=
  let edgeP1 := verts i
  let edgeP2 := verts (i + 1)
  let edgeDir := sub edgeP2 edgeP1
  let g := normalize ⟨-edgeDir.y, edgeDir.x⟩
  if 0 < dot g (sub center edgeP1) then scale g (-1) else g

/-- The `entering` flag of `traceRay`: the ray enters the glass when its
direction opposes the geometric outward normal. -/
def entering (L g : Vector) : Prop := dot L g < 0

/-- The refractive index `n1` of the incident medium in `traceRay`. -/
def n1val (prismIOR wl : ℝ) (L g : Vector) : ℝ :=
  if dot L g < 0 then 1 else prismIOR + wl

/-- The refractive index `n2` of the transmission medium in `traceRay`. -/
def n2val (prismIOR wl : ℝ) (L g : Vector) : ℝ :=
  if dot L g < 0 then prismIOR + wl else 1

/-- The oriented normal of `traceRay`, facing the incident medium. -/
def orientedNormal (L g : Vector) : Vector :=
  if dot L g < 0 then g else scale g (-1)

/-- The ratio `eta = n1 / n2` computed in `traceRay`. -/
def etaVal (prismIOR : ℝ) (r : Ray) (g : Vector) : ℝ :=
  n1val prismIOR r.wavelength r.direction g / n2val prismIOR r.wavelength r.direction g

/-- The quantity `cs2 = 1 - eta^2 * (1 - c1^2)` of `traceRay`, with
`c1 = -dot(L, orientedN)`. -/
def cs2Val (eta : ℝ) (L N : Vector) : ℝ :=
  1 - eta * eta * (1 - -dot L N * -dot L N)

/-- The mirror-reflection direction of `traceRay`'s total-internal-reflection
branch: `L - orientedN * (2 * dot(L, orientedN))`. -/
def reflectDir (L N : Vector) : Vector := sub L (scale N (2 * dot L N))

/-- The transmitted direction of `traceRay`'s refraction branch:
`L * eta + orientedN * (eta * c1 - sqrt cs2)` with `c1 = -dot(L, orientedN)`. -/
def refractDir (eta : ℝ) (L N : Vector) : Vector :=
  add (scale L eta) (scale N (eta * -dot L N - Real.sqrt (cs2Val eta L N)))

/-- The child ray spawned by the hit case of `traceRay`: total internal
reflection when `cs2 < 0`, refraction otherwise; the origin is the hit point
pushed `0.01` along the (pre-normalization) new direction, and color,
wavelength and intensity are carried over. -/
def childRay (prismIOR : ℝ) (center : Point) (r : Ray) (ch : ClosestHit)
    (verts : Fin 3 → Point) : Ray :=
  let g := geoNormal center verts ch.boundaryIndex
  let orientedN := orientedNormal r.direction g
  let eta := etaVal prismIOR r g
  if cs2Val eta r.direction orientedN < 0 then
    ⟨add ch.point (scale (reflectDir r.direction orientedN) 0.01),
     normalize (reflectDir r.direction orientedN),
     r.color, r.wavelength, r.intensity⟩
  else
    ⟨add ch.point (scale (refractDir eta r.direction orientedN) 0.01),
     normalize (refractDir eta r.direction orientedN),
     r.color, r.wavelength, r.intensity⟩

/-- The segment pushed in the hit case of `traceRay` (ray origin to hit point,
thicker and sharper for the primary ray). -/
def hitSegment (r : Ray) (ch : ClosestHit) (depth : ℕ) : Segment :=
  ⟨r.origin, ch.point, r.color,
   if depth = 0 then 3 else 1.5,
   if depth = 0 then 15 else 8⟩

/-- The segment pushed in the escape case of `traceRay` (ray origin to a point
2000 units along the direction). -/
def escapeSegment (r : Ray) (depth : ℕ) : Segment :=
  ⟨r.origin, add r.origin (scale r.direction 2000), r.color,
   if depth = 0 then 3 else if depth = 2 then 2 else 6,
   if depth = 0 then 10 else 20⟩

/-- `traceRay` of OpticsCanvas.  The JS function pushes onto a shared array;
here the array is passed in and the extended array returned.  Recursion is
guarded by `depth > 4`, so it is well founded on `5 - depth`. -/
def traceRay (prismIOR : ℝ) (center : Point) (ray : Ray) (depth : ℕ)
    (verts : Fin 3 → Point) (segments : List Segment) : List Segment :=
  if h : 4 < depth then segments
  else
    match closestHit ray.origin ray.direction verts with
    | some ch =>
      traceRay prismIOR center (childRay prismIOR center ray ch verts) (depth + 1)
        verts (segments ++ [hitSegment ray ch depth])
    | none => segments ++ [escapeSegment ray depth]
termination_by 5 - depth
decreasing_by simp_wf; omega

/-! Basic facts about the vector algebra. -/

theorem mag_nonneg (v : Vector) : 0 ≤ mag v := Real.sqrt_nonneg _

theorem mag_eq_zero_iff (v : Vector) : mag v = 0 ↔ v = ⟨0, 0⟩ := by
  unfold mag
  rw [Real.sqrt_eq_zero']
  constructor
  · intro h
    have hx : v.x = 0 := by nlinarith [sq_nonneg v.x, sq_nonneg v.y]
    have hy : v.y = 0 := by nlinarith [sq_nonneg v.x, sq_nonneg v.y]
    ext <;> simp [hx, hy]
  · intro h
    rw [h]
    norm_num

theorem mag_eq_one_iff (v : Vector) : mag v = 1 ↔ v.x * v.x + v.y * v.y = 1 := by
  unfold mag
  exact Real.sqrt_eq_one

theorem mag_mul_self (v : Vector) : mag v * mag v = v.x * v.x + v.y * v.y :=
  Real.mul_self_sqrt (by nlinarith [mul_self_nonneg v.x, mul_self_nonneg v.y])

theorem mag_scale_neg_one (v : Vector) : mag (scale v (-1)) = mag v := by
  unfold mag scale
  congr 1
  ring

theorem mag_normalize (v : Vector) (h : mag v ≠ 0) : mag (normalize v) = 1 := by
  unfold normalize
  rw [if_neg h, mag_eq_one_iff]
  have h2 := mag_mul_self v
  field_simp
  linear_combination -h2

theorem normalize_of_mag_one (v : Vector) (h : mag v = 1) : normalize v = v := by
  unfold normalize
  rw [h]
  simp

theorem dot_scale_left (v w : Vector) (s : ℝ) : dot (scale v s) w = s * dot v w := by
  unfold dot scale
  ring

/-! Unfolding equations for `traceRay`. -/

theorem traceRay_stop (p : ℝ) (c : Point) (r : Ray) (depth : ℕ)
    (verts : Fin 3 → Point) (segs : List Segment) (h : 4 < depth) :
    traceRay p c r depth verts segs = segs := by
  rw [traceRay, dif_pos h]

theorem traceRay_hit_step (p : ℝ) (c : Point) (r : Ray) (depth : ℕ)
    (verts : Fin 3 → Point) (segs : List Segment) (ch : ClosestHit)
    (h : ¬ 4 < depth) (hcl : closestHit r.origin r.direction verts = some ch) :
    traceRay p c r depth verts segs =
      traceRay p c (childRay p c r ch verts) (depth + 1) verts
        (segs ++ [hitSegment r ch depth]) := by
  rw [traceRay, dif_neg h, hcl]

theorem traceRay_escape_step (p : ℝ) (c : Point) (r : Ray) (depth : ℕ)
    (verts : Fin 3 → Point) (segs : List Segment)
    (h : ¬ 4 < depth) (hcl : closestHit r.origin r.direction verts = none) :
    traceRay p c r depth verts segs = segs ++ [escapeSegment r depth] := by
  rw [traceRay, dif_neg h, hcl]

/-- Concrete ray used to instantiate universally quantified theorems. -/
def wRay : Ray := ⟨⟨0, 0⟩, ⟨1, 0⟩, "#ffffff", 0, 1⟩

/-- Concrete triangle used to instantiate universally quantified theorems. -/
def wVerts : Fin 3 → Point := fun i =>
  if i = 0 then ⟨0, 0⟩ else if i = 1 then ⟨2, 0⟩ else ⟨1, 2⟩

/-- The tracer appends, never edits: the output list extends the input list,
and the number of appended segments is at most `5 - depth`. -/
theorem traceRay_append_bound :
    ∀ (k depth : ℕ), 5 - depth ≤ k →
      ∀ (p : ℝ) (c : Point) (r : Ray) (verts : Fin 3 → Point) (segs : List Segment),
        ∃ new, traceRay p c r depth verts segs = segs ++ new ∧ new.length ≤ 5 - depth := by
  intro k
  induction k with
  | zero =>
    intro depth hd p c r verts segs
    have h5 : 4 < depth := by omega
    exact ⟨[], by rw [traceRay_stop p c r depth verts segs h5, List.append_nil], by simp⟩
  | succ k ih =>
    intro depth hd p c r verts segs
    by_cases h5 : 4 < depth
    · exact ⟨[], by rw [traceRay_stop p c r depth verts segs h5, List.append_nil], by simp⟩
    · cases hcl : closestHit r.origin r.direction verts with
      | none =>
        refine ⟨[escapeSegment r depth], ?_, ?_⟩
        · rw [traceRay_escape_step p c r depth verts segs h5 hcl]
        · simp
          omega
      | some ch =>
        obtain ⟨new, hnew, hlen⟩ :=
          ih (depth + 1) (by omega) p c (childRay p c r ch verts) verts
            (segs ++ [hitSegment r ch depth])
        refine ⟨hitSegment r ch depth :: new, ?_, ?_⟩
        · rw [traceRay_hit_step p c r depth verts segs ch h5 hcl, hnew,
            List.append_assoc]
          rfl
        · simp
          omega

/-- C5: the tracer terminates on every input: each recursive call uses
`depth + 1`, and any call with `depth > 4` returns its segment list unchanged,
emitting nothing and not recursing. -/
theorem claim5_depth_guard (p : ℝ) (c : Point) (r : Ray) (depth : ℕ)
    (verts : Fin 3 → Point) (segs : List Segment) :
    (4 < depth → traceRay p c r depth verts segs = segs) ∧
    (∀ ch, ¬ 4 < depth → closestHit r.origin r.direction verts = some ch →
      traceRay p c r depth verts segs =
        traceRay p c (childRay p c r ch verts) (depth + 1) verts
          (segs ++ [hitSegment r ch depth])) := by
  constructor
  · intro h
    exact traceRay_stop p c r depth verts segs h
  · intro ch h hcl
    exact traceRay_hit_step p c r depth verts segs ch h hcl

theorem claim5_depth_guard_witness :
    traceRay 1.5 ⟨0, 0⟩ wRay 5 wVerts [] = [] :=
  (claim5_depth_guard 1.5 ⟨0, 0⟩ wRay 5 wVerts []).1 (by norm_num)

/-- C8: `normalize` returns the zero vector exactly when the magnitude is
zero; on nonzero magnitude it divides the input by its magnitude and the
result has magnitude 1, so the function is total. -/
theorem claim8_normalize_total (v : Vector) :
    normalize ⟨0, 0⟩ = (⟨0, 0⟩ : Vector) ∧
    (mag v = 0 → normalize v = ⟨0, 0⟩) ∧
    (mag v ≠ 0 →
      normalize v = ⟨v.x / mag v, v.y / mag v⟩ ∧ mag (normalize v) = 1) := by
  refine ⟨?_, ?_, ?_⟩
  · unfold normalize
    rw [if_pos]
    unfold mag
    norm_num
  · intro h
    unfold normalize
    rw [if_pos h]
  · intro h
    exact ⟨by unfold normalize; rw [if_neg h], mag_normalize v h⟩

theorem claim8_normalize_total_witness : mag (normalize ⟨3, 4⟩) = 1 :=
  ((claim8_normalize_total ⟨3, 4⟩).2.2 (by simp [mag_eq_zero_iff])).2

/-- C9: the spectrum table runs red through violet with strictly increasing
refractive-index offsets from -0.03 to 0.03 (hence strictly increasing glass
index `base + offset` for every base index), and all intensities are in
the interval (0, 1]. -/
theorem claim9_spectrum_order :
    SPECTRUM.map (fun s => s.wlOffset) = [-0.03, -0.02, -0.01, 0, 0.01, 0.02, 0.03] ∧
    List.Chain' (· < ·) (SPECTRUM.map (fun s => s.wlOffset)) ∧
    (∀ base : ℝ, List.Chain' (· < ·) (SPECTRUM.map (fun s => base + s.wlOffset))) ∧
    (∀ s ∈ SPECTRUM, 0 < s.intensity ∧ s.intensity ≤ 1) := by
  refine ⟨?_, ?_, ?_, ?_⟩
  · simp [SPECTRUM]
    norm_num
  · simp [SPECTRUM, List.chain'_cons]
    norm_num
  · intro base
    simp [SPECTRUM, List.chain'_cons]
    norm_num
    constructor <;> linarith
  · intro s hs
    fin_cases hs <;> norm_num

theorem claim9_spectrum_order_witness :
    0 < (⟨"#ff0000", -0.03, 1.0⟩ : SpectrumSample).intensity ∧
      (⟨"#ff0000", -0.03, 1.0⟩ : SpectrumSample).intensity ≤ 1 :=
  claim9_spectrum_order.2.2.2 _ (by simp [SPECTRUM])

/-- C10: the tracer only appends to its output: the input list is an
unchanged prefix of the output, and a trace started at depth 0 appends at
most 5 segments. -/
theorem claim10_append_only (p : ℝ) (c : Point) (r : Ray) (depth : ℕ)
    (verts : Fin 3 → Point) (segs : List Segment) :
    (∃ new, traceRay p c r depth verts segs = segs ++ new ∧
      new.length ≤ 5 - depth) ∧
    (traceRay p c r 0 verts segs).length ≤ segs.length + 5 := by
  constructor
  · exact traceRay_append_bound (5 - depth) depth (by omega) p c r verts segs
  · obtain ⟨new, hnew, hlen⟩ :=
      traceRay_append_bound 5 0 (by omega) p c r verts segs
    rw [hnew]
    simp
    omega

/-! Facts about the geometric outward normal of a prism edge. -/

theorem mag_perp_ne_zero (a b : Point) (h : a ≠ b) :
    mag ⟨-(sub b a).y, (sub b a).x⟩ ≠ 0 := by
  rw [Ne, mag_eq_zero_iff]
  intro he
  apply h
  have hx := congrArg Point.x he
  have hy := congrArg Point.y he
  simp [sub] at hx hy
  ext
  · linarith
  · linarith

theorem dot_normalize_perp (e : Vector) : dot (normalize ⟨-e.y, e.x⟩) e = 0 := by
  unfold normalize
  split_ifs
  · simp [dot]
  · simp [dot]
    ring

theorem geoNormal_mag (c : Point) (verts : Fin 3 → Point) (i : Fin 3)
    (h : verts i ≠ verts (i + 1)) : mag (geoNormal c verts i) = 1 := by
  simp only [geoNormal]
  split_ifs
  · rw [mag_scale_neg_one]
    exact mag_normalize _ (mag_perp_ne_zero _ _ h)
  · exact mag_normalize _ (mag_perp_ne_zero _ _ h)

theorem geoNormal_perp (c : Point) (verts : Fin 3 → Point) (i : Fin 3) :
    dot (geoNormal c verts i) (sub (verts (i + 1)) (verts i)) = 0 := by
  simp only [geoNormal]
  split_ifs
  · rw [dot_scale_left, dot_normalize_perp]
    ring
  · exact dot_normalize_perp _

theorem geoNormal_outward (c : Point) (verts : Fin 3 → Point) (i : Fin 3) :
    dot (geoNormal c verts i) (sub c (verts i)) ≤ 0 := by
  simp only [geoNormal]
  split_ifs with hf
  · rw [dot_scale_left]
    linarith
  · exact le_of_not_lt hf

/-- C2: the geometric outward normal is the unit perpendicular of the edge,
oriented so that its dot product with the vector to the prism center is
non-positive; the ray enters exactly when its direction opposes this normal;
entering selects air-to-glass indices and keeps the normal, exiting swaps the
indices and negates the normal. -/
theorem claim2_normal_orientation (p wl : ℝ) (c : Point) (verts : Fin 3 → Point)
    (i : Fin 3) (L : Vector) (hedge : verts i ≠ verts (i + 1)) :
    mag (geoNormal c verts i) = 1 ∧
    dot (geoNormal c verts i) (sub (verts (i + 1)) (verts i)) = 0 ∧
    dot (geoNormal c verts i) (sub c (verts i)) ≤ 0 ∧
    (entering L (geoNormal c verts i) ↔ dot L (geoNormal c verts i) < 0) ∧
    (entering L (geoNormal c verts i) →
      n1val p wl L (geoNormal c verts i) = 1 ∧
      n2val p wl L (geoNormal c verts i) = p + wl ∧
      orientedNormal L (geoNormal c verts i) = geoNormal c verts i) ∧
    (¬ entering L (geoNormal c verts i) →
      n1val p wl L (geoNormal c verts i) = p + wl ∧
      n2val p wl L (geoNormal c verts i) = 1 ∧
      orientedNormal L (geoNormal c verts i) = scale (geoNormal c verts i) (-1)) := by
  refine ⟨geoNormal_mag c verts i hedge, geoNormal_perp c verts i,
    geoNormal_outward c verts i, Iff.rfl, ?_, ?_⟩
  · intro h
    unfold entering at h
    unfold n1val n2val orientedNormal
    rw [if_pos h, if_pos h, if_pos h]
    exact ⟨rfl, rfl, rfl⟩
  · intro h
    unfold entering at h
    unfold n1val n2val orientedNormal
    rw [if_neg h, if_neg h, if_neg h]
    exact ⟨rfl, rfl, rfl⟩

theorem claim2_normal_orientation_witness : mag (geoNormal ⟨1, 1⟩ wVerts 0) = 1 :=
  (claim2_normal_orientation 1.5 0 ⟨1, 1⟩ wVerts 0 ⟨0, 1⟩
    (by
      show wVerts 0 ≠ wVerts 1
      simp [wVerts, Point.ext_iff])).1

/-- C7: at exactly perpendicular incidence (`c1 = -dot(L, N) = 1`, with unit
incident direction and unit oriented normal) the computed `cs2` equals 1 for
every positive `eta`, so the refraction branch is selected, and the normalized
transmitted direction equals the incident direction. -/
theorem claim7_normal_incidence (eta : ℝ) (L N : Vector) (he : 0 < eta)
    (hL : mag L = 1) (hN : mag N = 1) (hc1 : -dot L N = 1) :
    cs2Val eta L N = 1 ∧
    ¬ cs2Val eta L N < 0 ∧
    normalize (add (scale L eta)
      (scale N (eta * -dot L N - Real.sqrt (cs2Val eta L N)))) = L := by
  have hd : dot L N = -1 := by linarith
  have hcs : cs2Val eta L N = 1 := by
    unfold cs2Val
    rw [hd]
    ring
  refine ⟨hcs, by rw [hcs]; norm_num, ?_⟩
  have hL2 := (mag_eq_one_iff L).mp hL
  have hN2 := (mag_eq_one_iff N).mp hN
  have hdc : L.x * N.x + L.y * N.y = -1 := hd
  have h1 : (L.x + N.x) * (L.x + N.x) = 0 := by
    nlinarith [mul_self_nonneg (L.y + N.y)]
  have h2 : (L.y + N.y) * (L.y + N.y) = 0 := by
    nlinarith [mul_self_nonneg (L.x + N.x)]
  have hx : N.x = -L.x := by
    have := mul_self_eq_zero.mp h1
    linarith
  have hy : N.y = -L.y := by
    have := mul_self_eq_zero.mp h2
    linarith
  have hdir : add (scale L eta)
      (scale N (eta * -dot L N - Real.sqrt (cs2Val eta L N))) = L := by
    rw [hcs, Real.sqrt_one]
    ext
    · simp only [add, scale, dot, hx, hy]
      linear_combination (-L.x * eta) * hL2
    · simp only [add, scale, dot, hx, hy]
      linear_combination (-L.y * eta) * hL2
  rw [hdir]
  exact normalize_of_mag_one L hL

theorem claim7_normal_incidence_witness : cs2Val 2 ⟨1, 0⟩ ⟨-1, 0⟩ = 1 :=
  (claim7_normal_incidence 2 ⟨1, 0⟩ ⟨-1, 0⟩ (by norm_num)
    (by
      unfold mag
      norm_num)
    (by
      unfold mag
      norm_num)
    (by
      unfold dot
      norm_num)).1

/-! Geometry of the prism vertices. -/

theorem cos_two_pi_div_three : Real.cos (2 * Real.pi / 3) = -(1 / 2) := by
  have h : (2 * Real.pi / 3 : ℝ) = Real.pi - Real.pi / 3 := by ring
  rw [h, Real.cos_pi_sub, Real.cos_pi_div_three]

theorem cos_four_pi_div_three : Real.cos (4 * Real.pi / 3) = -(1 / 2) := by
  have h : (4 * Real.pi / 3 : ℝ) = Real.pi + Real.pi / 3 := by ring
  rw [h, Real.cos_add, Real.cos_pi, Real.sin_pi, Real.cos_pi_div_three]
  ring

theorem dist_circle (cx cy r a b : ℝ) (hr : 0 ≤ r) :
    distance ⟨cx + r * Real.cos a, cy + r * Real.sin a⟩
      ⟨cx + r * Real.cos b, cy + r * Real.sin b⟩
      = r * Real.sqrt (2 - 2 * Real.cos (b - a)) := by
  unfold distance
  have key : (cx + r * Real.cos b - (cx + r * Real.cos a)) ^ 2 +
      (cy + r * Real.sin b - (cy + r * Real.sin a)) ^ 2 =
      r ^ 2 * (2 - 2 * Real.cos (b - a)) := by
    rw [Real.cos_sub]
    have ha := Real.sin_sq_add_cos_sq a
    have hb := Real.sin_sq_add_cos_sq b
    linear_combination r ^ 2 * ha + r ^ 2 * hb
  rw [key, Real.sqrt_mul (sq_nonneg r), Real.sqrt_sq hr]

theorem prism_dist_aux (cx cy r : ℝ) (hr : 0 ≤ r) (a b d : ℝ)
    (hab : b - a = d) (hcos : Real.cos d = -(1 / 2)) :
    distance ⟨cx + r * Real.cos a, cy + r * Real.sin a⟩
      ⟨cx + r * Real.cos b, cy + r * Real.sin b⟩ = r * Real.sqrt 3 := by
  rw [dist_circle cx cy r a b hr, hab, hcos]
  norm_num

theorem cos_neg_two_pi_div_three : Real.cos (-(2 * Real.pi / 3)) = -(1 / 2) := by
  rw [Real.cos_neg]
  exact cos_two_pi_div_three

theorem cos_neg_four_pi_div_three : Real.cos (-(4 * Real.pi / 3)) = -(1 / 2) := by
  rw [Real.cos_neg]
  exact cos_four_pi_div_three

/-- C6: the prism-vertex function places its three vertices on the circle of
radius `sideLength / sqrt 3` around the center at the angles
`rotation - pi/2`, `rotation - pi/2 + 2*pi/3` and `rotation - pi/2 + 4*pi/3`;
hence all pairwise distances of distinct vertices equal the side length, and
at `rotation = 0` vertex 0 sits directly above the center (same `x`, smaller
canvas `y`). -/
theorem claim6_prism_vertices (p : PrismData) (hs : 0 < p.sideLength) :
    getPrismVertices p 0 =
      ⟨p.center.x + p.sideLength / Real.sqrt 3 * Real.cos (p.rotation - Real.pi / 2),
       p.center.y + p.sideLength / Real.sqrt 3 * Real.sin (p.rotation - Real.pi / 2)⟩ ∧
    getPrismVertices p 1 =
      ⟨p.center.x + p.sideLength / Real.sqrt 3 *
          Real.cos (p.rotation - Real.pi / 2 + 2 * Real.pi / 3),
       p.center.y + p.sideLength / Real.sqrt 3 *
          Real.sin (p.rotation - Real.pi / 2 + 2 * Real.pi / 3)⟩ ∧
    getPrismVertices p 2 =
      ⟨p.center.x + p.sideLength / Real.sqrt 3 *
          Real.cos (p.rotation - Real.pi / 2 + 4 * Real.pi / 3),
       p.center.y + p.sideLength / Real.sqrt 3 *
          Real.sin (p.rotation - Real.pi / 2 + 4 * Real.pi / 3)⟩ ∧
    (∀ i j : Fin 3, i ≠ j →
      distance (getPrismVertices p i) (getPrismVertices p j) = p.sideLength) ∧
    (p.rotation = 0 →
      (getPrismVertices p 0).x = p.center.x ∧
      (getPrismVertices p 0).y < p.center.y) := by
  have hr : 0 ≤ p.sideLength / Real.sqrt 3 := div_nonneg hs.le (Real.sqrt_nonneg 3)
  have hrpos : 0 < p.sideLength / Real.sqrt 3 :=
    div_pos hs (Real.sqrt_pos.mpr (by norm_num))
  have hrs : p.sideLength / Real.sqrt 3 * Real.sqrt 3 = p.sideLength :=
    div_mul_cancel₀ _ (Real.sqrt_ne_zero'.mpr (by norm_num))
  refine ⟨rfl, rfl, rfl, ?_, ?_⟩
  · intro i j hij
    fin_cases i <;> fin_cases j <;> simp only [getPrismVertices]
    · exact absurd rfl hij
    · exact (prism_dist_aux _ _ _ hr _ _ (2 * Real.pi / 3)
        (by simp [prismAngle]; try ring) cos_two_pi_div_three).trans hrs
    · exact (prism_dist_aux _ _ _ hr _ _ (4 * Real.pi / 3)
        (by simp [prismAngle]; try ring) cos_four_pi_div_three).trans hrs
    · exact (prism_dist_aux _ _ _ hr _ _ (-(2 * Real.pi / 3))
        (by simp [prismAngle]; try ring) cos_neg_two_pi_div_three).trans hrs
    · exact absurd rfl hij
    · exact (prism_dist_aux _ _ _ hr _ _ (2 * Real.pi / 3)
        (by simp [prismAngle]; try ring) cos_two_pi_div_three).trans hrs
    · exact (prism_dist_aux _ _ _ hr _ _ (-(4 * Real.pi / 3))
        (by simp [prismAngle]; try ring) cos_neg_four_pi_div_three).trans hrs
    · exact (prism_dist_aux _ _ _ hr _ _ (-(2 * Real.pi / 3))
        (by simp [prismAngle]; try ring) cos_neg_two_pi_div_three).trans hrs
    · exact absurd rfl hij
  · intro h0
    constructor
    · show p.center.x + p.sideLength / Real.sqrt 3 *
        Real.cos (p.rotation - Real.pi / 2) = p.center.x
      rw [h0, zero_sub, Real.cos_neg, Real.cos_pi_div_two]
      ring
    · show p.center.y + p.sideLength / Real.sqrt 3 *
        Real.sin (p.rotation - Real.pi / 2) < p.center.y
      rw [h0, zero_sub, Real.sin_neg, Real.sin_pi_div_two]
      linarith

theorem claim6_prism_vertices_witness :
    distance (getPrismVertices ⟨⟨0, 0⟩, 0, 1, 1.5⟩ 0)
      (getPrismVertices ⟨⟨0, 0⟩, 0, 1, 1.5⟩ 1) = 1 :=
  (claim6_prism_vertices ⟨⟨0, 0⟩, 0, 1, 1.5⟩ (by norm_num)).2.2.2.1 0 1 (by decide)

/-! Properties of the ray-segment intersection. -/

theorem dot_scale_right (v w : Vector) (s : ℝ) : dot v (scale w s) = s * dot v w := by
  unfold dot scale
  ring

theorem segNormal_mag (d : Vector) (p1 p2 : Point) (hne : p1 ≠ p2) :
    mag (segNormal d p1 p2) = 1 := by
  simp only [segNormal]
  split_ifs
  · rw [mag_scale_neg_one]
    exact mag_normalize _ (mag_perp_ne_zero _ _ hne)
  · exact mag_normalize _ (mag_perp_ne_zero _ _ hne)

theorem segNormal_perp (d : Vector) (p1 p2 : Point) :
    dot (segNormal d p1 p2) (sub p2 p1) = 0 := by
  simp only [segNormal]
  split_ifs
  · rw [dot_scale_left, dot_normalize_perp]
    ring
  · exact dot_normalize_perp _

theorem segNormal_opposes (d : Vector) (p1 p2 : Point) :
    dot d (segNormal d p1 p2) ≤ 0 := by
  simp only [segNormal]
  split_ifs with hf
  · rw [dot_scale_right]
    linarith
  · exact le_of_not_lt hf

theorem ne_of_denom (o : Point) (d : Vector) (p1 p2 : Point)
    (h : ¬ |rsDenom o d p1 p2| < 1e-6) : p1 ≠ p2 := by
  intro he
  apply h
  subst he
  unfold rsDenom
  norm_num

/-- C3: `intersectRaySegment` reports no intersection exactly when the
determinant is tiny, the ray parameter fails `t > 0.001`, or the segment
parameter leaves `[0, 1]`; in the remaining case it returns the hit at
`origin + t * direction` with parameter `t` and a unit normal that is
perpendicular to the segment and opposes the incident direction. -/
theorem claim3_intersect_cases (o : Point) (d : Vector) (p1 p2 : Point) :
    (intersectRaySegment o d p1 p2 = none ↔
      |rsDenom o d p1 p2| < 1e-6 ∨ ¬ 0.001 < rsT o d p1 p2 ∨
      rsU o d p1 p2 < 0 ∨ 1 < rsU o d p1 p2) ∧
    (¬ |rsDenom o d p1 p2| < 1e-6 → 0.001 < rsT o d p1 p2 →
      0 ≤ rsU o d p1 p2 → rsU o d p1 p2 ≤ 1 →
      ∃ h, intersectRaySegment o d p1 p2 = some h ∧
        h.point = add o (scale d h.t) ∧
        h.t = rsT o d p1 p2 ∧
        mag h.normal = 1 ∧
        dot h.normal (sub p2 p1) = 0 ∧
        dot d h.normal ≤ 0) := by
  constructor
  · by_cases h1 : |rsDenom o d p1 p2| < 1e-6
    · unfold intersectRaySegment
      simp [h1]
    · by_cases h2 : 0.001 < rsT o d p1 p2 ∧ 0 ≤ rsU o d p1 p2 ∧ rsU o d p1 p2 ≤ 1
      · unfold intersectRaySegment
        rw [if_neg h1, if_pos h2]
        constructor
        · intro hx
          exact absurd hx (by simp)
        · rintro (hx | hx | hx | hx)
          · exact absurd hx h1
          · exact absurd h2.1 hx
          · linarith [h2.2.1]
          · linarith [h2.2.2]
      · unfold intersectRaySegment
        rw [if_neg h1, if_neg h2]
        simp only [true_iff]
        rcases not_and_or.mp h2 with ht | hrest
        · exact Or.inr (Or.inl ht)
        · rcases not_and_or.mp hrest with hu | hu
          · exact Or.inr (Or.inr (Or.inl (not_le.mp hu)))
          · exact Or.inr (Or.inr (Or.inr (not_le.mp hu)))
  · intro h1 ht hu0 hu1
    have hne := ne_of_denom o d p1 p2 h1
    refine ⟨⟨⟨o.x + rsT o d p1 p2 * ((o.x + d.x) - o.x),
              o.y + rsT o d p1 p2 * ((o.y + d.y) - o.y)⟩,
             rsT o d p1 p2, segNormal d p1 p2⟩,
      ?_, ?_, rfl, segNormal_mag d p1 p2 hne, segNormal_perp d p1 p2,
      segNormal_opposes d p1 p2⟩
    · unfold intersectRaySegment
      rw [if_neg h1, if_pos ⟨ht, hu0, hu1⟩]
    · ext
      · simp [add, scale]
        ring
      · simp [add, scale]
        ring

theorem claim3_intersect_cases_witness :
    ∃ h, intersectRaySegment ⟨0, 0⟩ ⟨1, 0⟩ ⟨2, -1⟩ ⟨2, 1⟩ = some h ∧
      h.point = add ⟨0, 0⟩ (scale ⟨1, 0⟩ h.t) ∧
      h.t = rsT ⟨0, 0⟩ ⟨1, 0⟩ ⟨2, -1⟩ ⟨2, 1⟩ ∧
      mag h.normal = 1 ∧
      dot h.normal (sub ⟨2, 1⟩ ⟨2, -1⟩) = 0 ∧
      dot ⟨1, 0⟩ h.normal ≤ 0 :=
  (claim3_intersect_cases ⟨0, 0⟩ ⟨1, 0⟩ ⟨2, -1⟩ ⟨2, 1⟩).2
    (by norm_num [rsDenom])
    (by norm_num [rsT, rsDenom])
    (by norm_num [rsU, rsDenom])
    (by norm_num [rsU, rsDenom])

/-! The reflected and refracted directions of unit vectors are unit vectors. -/

theorem reflect_mag_one (L N : Vector) (hL : L.x * L.x + L.y * L.y = 1)
    (hN : N.x * N.x + N.y * N.y = 1) : mag (reflectDir L N) = 1 := by
  rw [mag_eq_one_iff]
  simp only [reflectDir, sub, scale, dot]
  linear_combination hL + 4 * (L.x * N.x + L.y * N.y) ^ 2 * hN

theorem refract_mag_one (eta : ℝ) (L N : Vector) (hL : L.x * L.x + L.y * L.y = 1)
    (hN : N.x * N.x + N.y * N.y = 1) (hcs : 0 ≤ cs2Val eta L N) :
    mag (refractDir eta L N) = 1 := by
  have hs : Real.sqrt (cs2Val eta L N) * Real.sqrt (cs2Val eta L N) = cs2Val eta L N :=
    Real.mul_self_sqrt hcs
  rw [mag_eq_one_iff]
  simp only [refractDir, add, scale, dot]
  set S := Real.sqrt (cs2Val eta L N) with hSdef
  unfold cs2Val at hs
  simp only [dot] at hs
  linear_combination eta ^ 2 * hL + (eta * -(L.x * N.x + L.y * N.y) - S) ^ 2 * hN + hs

theorem orientedNormal_mag (L g : Vector) (hg : mag g = 1) :
    mag (orientedNormal L g) = 1 := by
  unfold orientedNormal
  split_ifs
  · exact hg
  · rw [mag_scale_neg_one]
    exact hg

/-- C1: in the hit case the child ray's direction is the normalized mirror
reflection when `cs2 < 0` and the normalized Snell refraction when
`cs2 >= 0`; its origin is the hit point pushed 0.01 units along the new
direction; color, wavelength offset and intensity are inherited; and the
recursion continues with `depth + 1`. -/
theorem claim1_child_ray (p : ℝ) (c : Point) (r : Ray) (ch : ClosestHit)
    (verts : Fin 3 → Point) (depth : ℕ) (segs : List Segment)
    (hL : mag r.direction = 1)
    (hedge : verts ch.boundaryIndex ≠ verts (ch.boundaryIndex + 1)) :
    (cs2Val (etaVal p r (geoNormal c verts ch.boundaryIndex)) r.direction
        (orientedNormal r.direction (geoNormal c verts ch.boundaryIndex)) < 0 →
      (childRay p c r ch verts).direction =
        normalize (sub r.direction
          (scale (orientedNormal r.direction (geoNormal c verts ch.boundaryIndex))
            (2 * dot r.direction
              (orientedNormal r.direction (geoNormal c verts ch.boundaryIndex)))))) ∧
    (0 ≤ cs2Val (etaVal p r (geoNormal c verts ch.boundaryIndex)) r.direction
        (orientedNormal r.direction (geoNormal c verts ch.boundaryIndex)) →
      (childRay p c r ch verts).direction =
        normalize (add
          (scale r.direction (etaVal p r (geoNormal c verts ch.boundaryIndex)))
          (scale (orientedNormal r.direction (geoNormal c verts ch.boundaryIndex))
            (etaVal p r (geoNormal c verts ch.boundaryIndex) *
                -dot r.direction
                  (orientedNormal r.direction (geoNormal c verts ch.boundaryIndex)) -
              Real.sqrt (cs2Val (etaVal p r (geoNormal c verts ch.boundaryIndex))
                r.direction
                (orientedNormal r.direction (geoNormal c verts ch.boundaryIndex))))))) ∧
    (childRay p c r ch verts).origin =
      add ch.point (scale (childRay p c r ch verts).direction 0.01) ∧
    (childRay p c r ch verts).color = r.color ∧
    (childRay p c r ch verts).wavelength = r.wavelength ∧
    (childRay p c r ch verts).intensity = r.intensity ∧
    (¬ 4 < depth → closestHit r.origin r.direction verts = some ch →
      traceRay p c r depth verts segs =
        traceRay p c (childRay p c r ch verts) (depth + 1) verts
          (segs ++ [hitSegment r ch depth])) := by
  have hg : mag (geoNormal c verts ch.boundaryIndex) = 1 :=
    geoNormal_mag c verts ch.boundaryIndex hedge
  have hN : mag (orientedNormal r.direction (geoNormal c verts ch.boundaryIndex)) = 1 :=
    orientedNormal_mag r.direction _ hg
  refine ⟨?_, ?_, ?_, ?_, ?_, ?_, ?_⟩
  · intro hcs
    simp only [childRay]
    rw [if_pos hcs]
    rfl
  · intro hcs
    simp only [childRay]
    rw [if_neg (not_lt.mpr hcs)]
    rfl
  · by_cases hcs : cs2Val (etaVal p r (geoNormal c verts ch.boundaryIndex)) r.direction
      (orientedNormal r.direction (geoNormal c verts ch.boundaryIndex)) < 0
    · simp only [childRay]
      rw [if_pos hcs]
      show add ch.point
          (scale (reflectDir r.direction
            (orientedNormal r.direction (geoNormal c verts ch.boundaryIndex))) 0.01) =
        add ch.point
          (scale (normalize (reflectDir r.direction
            (orientedNormal r.direction (geoNormal c verts ch.boundaryIndex)))) 0.01)
      rw [normalize_of_mag_one _
        (reflect_mag_one r.direction _ ((mag_eq_one_iff _).mp hL)
          ((mag_eq_one_iff _).mp hN))]
    · simp only [childRay]
      rw [if_neg hcs]
      show add ch.point
          (scale (refractDir (etaVal p r (geoNormal c verts ch.boundaryIndex)) r.direction
            (orientedNormal r.direction (geoNormal c verts ch.boundaryIndex))) 0.01) =
        add ch.point
          (scale (normalize (refractDir (etaVal p r (geoNormal c verts ch.boundaryIndex))
            r.direction
            (orientedNormal r.direction (geoNormal c verts ch.boundaryIndex)))) 0.01)
      rw [normalize_of_mag_one _
        (refract_mag_one _ r.direction _ ((mag_eq_one_iff _).mp hL)
          ((mag_eq_one_iff _).mp hN) (le_of_not_lt hcs))]
  · by_cases hcs : cs2Val (etaVal p r (geoNormal c verts ch.boundaryIndex)) r.direction
      (orientedNormal r.direction (geoNormal c verts ch.boundaryIndex)) < 0 <;>
      simp only [childRay]
    · rw [if_pos hcs]
    · rw [if_neg hcs]
  · by_cases hcs : cs2Val (etaVal p r (geoNormal c verts ch.boundaryIndex)) r.direction
      (orientedNormal r.direction (geoNormal c verts ch.boundaryIndex)) < 0 <;>
      simp only [childRay]
    · rw [if_pos hcs]
    · rw [if_neg hcs]
  · by_cases hcs : cs2Val (etaVal p r (geoNormal c verts ch.boundaryIndex)) r.direction
      (orientedNormal r.direction (geoNormal c verts ch.boundaryIndex)) < 0 <;>
      simp only [childRay]
    · rw [if_pos hcs]
    · rw [if_neg hcs]
  · intro hd hcl
    exact traceRay_hit_step p c r depth verts segs ch hd hcl

/-- Concrete closest-hit record used to instantiate `claim1_child_ray`. -/
def wCh : ClosestHit := ⟨⟨1, 0⟩, 1, ⟨0, -1⟩, 0⟩

theorem claim1_child_ray_witness :
    (childRay 1.5 ⟨1, 1⟩ wRay wCh wVerts).color = wRay.color :=
  (claim1_child_ray 1.5 ⟨1, 1⟩ wRay wCh wVerts 0 []
    (by
      show mag ⟨1, 0⟩ = 1
      unfold mag
      norm_num)
    (by
      show wVerts 0 ≠ wVerts 1
      simp [wVerts, Point.ext_iff])).2.2.2.1

/-! The closest-hit fold: provenance and minimality. -/

theorem updateClosest_eq_some (acc : Option ClosestHit) (hit : Option RayHit)
    (i : Fin 3) (ch : ClosestHit) (h : updateClosest acc hit i = some ch) :
    (hit = some ⟨ch.point, ch.t, ch.normal⟩ ∧ ch.boundaryIndex = i) ∨ acc = some ch := by
  cases hit with
  | none => exact Or.inr h
  | some hh =>
    cases acc with
    | none =>
      simp only [updateClosest] at h
      injection h with h'
      subst h'
      exact Or.inl ⟨rfl, rfl⟩
    | some cha =>
      simp only [updateClosest] at h
      by_cases hlt : hh.t < cha.t
      · rw [if_pos hlt] at h
        injection h with h'
        subst h'
        exact Or.inl ⟨rfl, rfl⟩
      · rw [if_neg hlt] at h
        exact Or.inr h

theorem updateClosest_some_of_hit (acc : Option ClosestHit) (hit : Option RayHit)
    (i : Fin 3) (hh : RayHit) (heq : hit = some hh) :
    ∃ ch', updateClosest acc hit i = some ch' ∧ ch'.t ≤ hh.t := by
  subst heq
  cases acc with
  | none => exact ⟨⟨hh.point, hh.t, hh.normal, i⟩, rfl, le_refl _⟩
  | some cha =>
    by_cases hlt : hh.t < cha.t
    · exact ⟨⟨hh.point, hh.t, hh.normal, i⟩,
        by simp only [updateClosest]; rw [if_pos hlt], le_refl _⟩
    · exact ⟨cha, by simp only [updateClosest]; rw [if_neg hlt], le_of_not_lt hlt⟩

theorem updateClosest_mono_acc (acc : Option ClosestHit) (hit : Option RayHit)
    (i : Fin 3) (cha : ClosestHit) (heq : acc = some cha) :
    ∃ ch', updateClosest acc hit i = some ch' ∧ ch'.t ≤ cha.t := by
  subst heq
  cases hit with
  | none => exact ⟨cha, rfl, le_refl _⟩
  | some hh =>
    by_cases hlt : hh.t < cha.t
    · exact ⟨⟨hh.point, hh.t, hh.normal, i⟩,
        by simp only [updateClosest]; rw [if_pos hlt], le_of_lt hlt⟩
    · exact ⟨cha, by simp only [updateClosest]; rw [if_neg hlt], le_refl _⟩

theorem closestHit_spec (o : Point) (d : Vector) (verts : Fin 3 → Point)
    (ch : ClosestHit) (h : closestHit o d verts = some ch) :
    (∃ i : Fin 3, intersectRaySegment o d (verts i) (verts (i + 1)) =
        some ⟨ch.point, ch.t, ch.normal⟩ ∧ ch.boundaryIndex = i) ∧
    (∀ i : Fin 3, ∀ hh,
      intersectRaySegment o d (verts i) (verts (i + 1)) = some hh → ch.t ≤ hh.t) := by
  unfold closestHit at h
  constructor
  · rcases updateClosest_eq_some _ _ _ _ h with ⟨h2, hb⟩ | hacc
    · exact ⟨2, by rw [show ((2 : Fin 3) + 1) = 0 from rfl]; exact h2, hb⟩
    · rcases updateClosest_eq_some _ _ _ _ hacc with ⟨h1, hb⟩ | hacc0
      · exact ⟨1, by rw [show ((1 : Fin 3) + 1) = 2 from rfl]; exact h1, hb⟩
      · rcases updateClosest_eq_some _ _ _ _ hacc0 with ⟨h0, hb⟩ | habs
        · exact ⟨0, by rw [show ((0 : Fin 3) + 1) = 1 from rfl]; exact h0, hb⟩
        · exact absurd habs (by simp)
  · intro i hh hi
    fin_cases i
    · have hi' : intersectRaySegment o d (verts 0) (verts 1) = some hh := hi
      obtain ⟨c0, hc0, ht0⟩ := updateClosest_some_of_hit none _ 0 hh hi'
      obtain ⟨c1, hc1, ht1⟩ :=
        updateClosest_mono_acc _ (intersectRaySegment o d (verts 1) (verts 2)) 1 c0 hc0
      obtain ⟨c2, hc2, ht2⟩ :=
        updateClosest_mono_acc _ (intersectRaySegment o d (verts 2) (verts 0)) 2 c1 hc1
      injection (h.symm.trans hc2) with hcc
      subst hcc
      linarith
    · have hi' : intersectRaySegment o d (verts 1) (verts 2) = some hh := hi
      obtain ⟨c1, hc1, ht1⟩ := updateClosest_some_of_hit _ _ 1 hh hi'
      obtain ⟨c2, hc2, ht2⟩ :=
        updateClosest_mono_acc _ (intersectRaySegment o d (verts 2) (verts 0)) 2 c1 hc1
      injection (h.symm.trans hc2) with hcc
      subst hcc
      linarith
    · have hi' : intersectRaySegment o d (verts 2) (verts 0) = some hh := hi
      obtain ⟨c2, hc2, ht2⟩ := updateClosest_some_of_hit _ _ 2 hh hi'
      injection (h.symm.trans hc2) with hcc
      subst hcc
      linarith

theorem closestHit_none_of (o : Point) (d : Vector) (verts : Fin 3 → Point)
    (h0 : intersectRaySegment o d (verts 0) (verts 1) = none)
    (h1 : intersectRaySegment o d (verts 1) (verts 2) = none)
    (h2 : intersectRaySegment o d (verts 2) (verts 0) = none) :
    closestHit o d verts = none := by
  unfold closestHit
  rw [h0, h1, h2]
  rfl

/-! A ray pointing away from both segment endpoints cannot produce a hit. -/

theorem rsT_on_segment (o : Point) (d : Vector) (p1 p2 : Point)
    (hden : rsDenom o d p1 p2 ≠ 0) :
    add o (scale d (rsT o d p1 p2)) =
      add p1 (scale (sub p2 p1) (rsU o d p1 p2)) := by
  unfold rsDenom at hden
  unfold rsT rsU rsDenom
  have hDinv := mul_inv_cancel₀ hden
  ext
  · simp only [add, scale, sub, div_eq_mul_inv]
    linear_combination (p1.x - o.x) * hDinv
  · simp only [add, scale, sub, div_eq_mul_inv]
    linear_combination (p1.y - o.y) * hDinv

theorem no_hit_pointing_away (o : Point) (d : Vector) (p1 p2 : Point)
    (hd : ¬ (d.x = 0 ∧ d.y = 0))
    (h1 : dot d (sub p1 o) ≤ 0) (h2 : dot d (sub p2 o) ≤ 0) :
    intersectRaySegment o d p1 p2 = none := by
  unfold intersectRaySegment
  split_ifs with hden hcond
  · rfl
  · exfalso
    obtain ⟨ht, hu0, hu1⟩ := hcond
    have hdne : rsDenom o d p1 p2 ≠ 0 := by
      intro h0
      apply hden
      rw [h0]
      norm_num
    have hons := rsT_on_segment o d p1 p2 hdne
    have hx := congrArg Point.x hons
    have hy := congrArg Point.y hons
    simp only [add, scale, sub] at hx hy
    simp only [dot, sub] at h1 h2
    have hdd : 0 < d.x * d.x + d.y * d.y := by
      rcases not_and_or.mp hd with hne | hne
      · nlinarith [mul_self_nonneg d.y, mul_self_pos.mpr hne]
      · nlinarith [mul_self_nonneg d.x, mul_self_pos.mpr hne]
    have key : rsT o d p1 p2 * (d.x * d.x + d.y * d.y) =
        (1 - rsU o d p1 p2) * (d.x * (p1.x - o.x) + d.y * (p1.y - o.y)) +
        rsU o d p1 p2 * (d.x * (p2.x - o.x) + d.y * (p2.y - o.y)) := by
      linear_combination d.x * hx + d.y * hy
    have hpos : 0 < rsT o d p1 p2 * (d.x * d.x + d.y * d.y) :=
      mul_pos (by linarith) hdd
    have hneg : (1 - rsU o d p1 p2) * (d.x * (p1.x - o.x) + d.y * (p1.y - o.y)) +
        rsU o d p1 p2 * (d.x * (p2.x - o.x) + d.y * (p2.y - o.y)) ≤ 0 :=
      add_nonpos
        (mul_nonpos_of_nonneg_of_nonpos (by linarith) h1)
        (mul_nonpos_of_nonneg_of_nonpos hu0 h2)
    rw [key] at hpos
    linarith
  · rfl

/-- C4: every call at depth at most 4 appends exactly one segment: on a hit
the segment runs from the origin to the minimal-`t` valid hit and exactly one
recursive call at `depth + 1` follows; with no hit the segment runs 2000
units along the direction and nothing recurses; in particular a ray pointing
directly away from all three vertices escapes with one segment. -/
theorem claim4_segments (p : ℝ) (c : Point) (r : Ray) (depth : ℕ)
    (verts : Fin 3 → Point) (segs : List Segment) :
    (∀ ch, ¬ 4 < depth → closestHit r.origin r.direction verts = some ch →
      traceRay p c r depth verts segs =
        traceRay p c (childRay p c r ch verts) (depth + 1) verts
          (segs ++ [hitSegment r ch depth]) ∧
      (hitSegment r ch depth).p1 = r.origin ∧
      (hitSegment r ch depth).p2 = ch.point ∧
      (∃ i : Fin 3, intersectRaySegment r.origin r.direction (verts i) (verts (i + 1)) =
          some ⟨ch.point, ch.t, ch.normal⟩ ∧ ch.boundaryIndex = i) ∧
      (∀ i : Fin 3, ∀ hh,
        intersectRaySegment r.origin r.direction (verts i) (verts (i + 1)) = some hh →
        ch.t ≤ hh.t)) ∧
    (¬ 4 < depth → closestHit r.origin r.direction verts = none →
      traceRay p c r depth verts segs = segs ++ [escapeSegment r depth] ∧
      (escapeSegment r depth).p1 = r.origin ∧
      (escapeSegment r depth).p2 = add r.origin (scale r.direction 2000)) ∧
    (¬ 4 < depth → r.direction ≠ ⟨0, 0⟩ →
      (∀ i : Fin 3, dot r.direction (sub (verts i) r.origin) ≤ 0) →
      traceRay p c r depth verts segs = segs ++ [escapeSegment r depth]) := by
  refine ⟨?_, ?_, ?_⟩
  · intro ch hd hcl
    obtain ⟨hprov, hmin⟩ := closestHit_spec r.origin r.direction verts ch hcl
    exact ⟨traceRay_hit_step p c r depth verts segs ch hd hcl, rfl, rfl, hprov, hmin⟩
  · intro hd hcl
    exact ⟨traceRay_escape_step p c r depth verts segs hd hcl, rfl, rfl⟩
  · intro hd hdir haway
    have hd' : ¬ (r.direction.x = 0 ∧ r.direction.y = 0) := by
      intro hc
      apply hdir
      ext
      · exact hc.1
      · exact hc.2
    have h0 : intersectRaySegment r.origin r.direction (verts 0) (verts 1) = none :=
      no_hit_pointing_away _ _ _ _ hd' (haway 0) (haway 1)
    have h1 : intersectRaySegment r.origin r.direction (verts 1) (verts 2) = none :=
      no_hit_pointing_away _ _ _ _ hd' (haway 1) (haway 2)
    have h2 : intersectRaySegment r.origin r.direction (verts 2) (verts 0) = none :=
      no_hit_pointing_away _ _ _ _ hd' (haway 2) (haway 0)
    exact traceRay_escape_step p c r depth verts segs hd
      (closestHit_none_of _ _ _ h0 h1 h2)

/-- Concrete ray that starts outside `wVerts` and points directly away. -/
def wAway : Ray := ⟨⟨-1, -1⟩, ⟨-1, 0⟩, "#ffffff", 0, 1⟩

theorem claim4_segments_witness :
    traceRay 1.5 ⟨1, 1⟩ wAway 0 wVerts [] = [] ++ [escapeSegment wAway 0] :=
  (claim4_segments 1.5 ⟨1, 1⟩ wAway 0 wVerts []).2.2 (by norm_num)
    (by
      intro hcontra
      have hx := congrArg Point.x hcontra
      norm_num [wAway] at hx)
    (by
      intro i
      fin_cases i
      · show dot ⟨-1, 0⟩ (sub ⟨0, 0⟩ ⟨-1, -1⟩) ≤ 0
        norm_num [dot, sub]
      · show dot ⟨-1, 0⟩ (sub ⟨2, 0⟩ ⟨-1, -1⟩) ≤ 0
        norm_num [dot, sub]
      · show dot ⟨-1, 0⟩ (sub ⟨1, 2⟩ ⟨-1, -1⟩) ≤ 0
        norm_num [dot, sub])

end

end Optics
